import Mathlib

/-!
Verification of the instance-provisioning wizard (`setup.py`) of the
splunk-uf-docker-factory repository.

Strings from the Python program are modelled as `List Char`.  The relevant
helper functions of `setup.py` (`sanitize_for_docker`, the port/host
validation in `main`, the stderr whitelist of `run_command`, the root
`.gitignore` update, `load_setup_config` / `save_setup_config`, and the
`inputs.conf` template) are translated into executable Lean definitions and
their specified properties are proved below.
-/

/-- Unicode code point of a character, as a natural number. -/
def charCode (c : Char) : Nat := c.toNat

/-- Python `str.lower` restricted to the ASCII range: maps `A`-`Z` (codes
65-90) to `a`-`z`.  Python also lowercases non-ASCII letters, but every
non-ASCII character is removed by the later `[^a-z0-9_-]` filter of
`sanitize_for_docker`, so the ASCII restriction is observationally
equivalent for the properties proved here. -/
def pyLowerChar (c : Char) : Char :=
  if 65 ≤ charCode c && charCode c ≤ 90 then Char.ofNat (charCode c + 32) else c

/-- The whitespace class of Python's `str.strip` / `re` `\s` (Unicode
whitespace): tab..carriage-return (9-13), file/group/record/unit
separators (28-31), space, next-line (0x85), no-break space (0xa0),
ogham space (0x1680), the en-quad..hair-space block (0x2000-0x200a),
line/paragraph separators (0x2028, 0x2029), narrow no-break space
(0x202f), medium mathematical space (0x205f) and ideographic space
(0x3000). -/
def isPySpace (c : Char) : Bool :=
  let n := charCode c
  (9 ≤ n && n ≤ 13) || (28 ≤ n && n ≤ 31) || n = 32 || n = 0x85 || n = 0xa0 ||
  n = 0x1680 || (0x2000 ≤ n && n ≤ 0x200a) || n = 0x2028 || n = 0x2029 ||
  n = 0x202f || n = 0x205f || n = 0x3000

/-- The character class kept by the `re.sub(r'[^a-z0-9_-]', '', name)` step
of `sanitize_for_docker`: lowercase ASCII letters, ASCII digits,
underscore (95) and hyphen (45). -/
def isAllowedChar (c : Char) : Bool :=
  let n := charCode c
  (97 ≤ n && n ≤ 122) || (48 ≤ n && n ≤ 57) || n = 95 || n = 45

/-- Underscore or hyphen, the characters removed from both ends by the
`name.strip('_-')` step of `sanitize_for_docker`. -/
def isUnderDash (c : Char) : Bool := charCode c = 95 || charCode c = 45

/-- One pass of `re.sub(r'\s+', '_', name)`: each maximal run of
whitespace becomes a single underscore.  The boolean argument records
whether the previous character was whitespace (i.e. whether we are inside
a run that has already emitted its underscore). -/
def collapseWsAux : Bool → List Char → List Char
  | _, [] => []
  | prevWs, c :: cs =>
    if isPySpace c then
      if prevWs then collapseWsAux true cs else '_' :: collapseWsAux true cs
    else c :: collapseWsAux false cs

/-- `re.sub(r'\s+', '_', name)` of `setup.py`. -/
def collapseWs (s : List Char) : List Char := collapseWsAux false s

/-- `name.strip('_-')` of `setup.py`: drop underscores/hyphens from both
ends. -/
def stripUnderDash (l : List Char) : List Char :=
  List.rdropWhile isUnderDash (l.dropWhile isUnderDash)

/-- `True` iff the list is nonempty and its first element is an underscore
or hyphen — the `name[0] in ('-', '_')` test of `sanitize_for_docker`. -/
def headUnderDash : List Char → Bool
  | [] => false
  | c :: _ => isUnderDash c

/-- The value bound to `name` in `sanitize_for_docker` just before its
final `return` statement: lower-case, collapse whitespace runs to `_`,
delete characters outside `[a-z0-9_-]`, strip leading/trailing `_`/`-`,
and prefix `"proj"` when the result is empty or starts with `-`/`_`. -/
def sanitizeSteps (s : List Char) : List Char :=
  let n1 := s.map pyLowerChar
  let n2 := collapseWs n1
  let n3 := n2.filter isAllowedChar
  let n4 := stripUnderDash n3
  if n4 = [] || headUnderDash n4 then "proj".data ++ n4 else n4

/-- `sanitize_for_docker` of `setup.py`: the pipeline above followed by
`return name if name else "default_proj"`. -/
def sanitize_for_docker (s : List Char) : List Char :=
  let name := sanitizeSteps s
  if name = [] then "default_proj".data else name

-- ### Supporting lemmas about the sanitizer

theorem pyLowerChar_of_allowed {c : Char} (h : isAllowedChar c = true) :
    pyLowerChar c = c := by
  simp only [isAllowedChar, Bool.or_eq_true, Bool.and_eq_true, decide_eq_true_eq] at h
  simp only [pyLowerChar, Bool.and_eq_true, decide_eq_true_eq]
  rw [if_neg]
  omega

theorem not_isPySpace_of_allowed {c : Char} (h : isAllowedChar c = true) :
    isPySpace c = false := by
  simp only [isAllowedChar, Bool.or_eq_true, Bool.and_eq_true, decide_eq_true_eq] at h
  rw [Bool.eq_false_iff]
  intro hs
  simp only [isPySpace, Bool.or_eq_true, Bool.and_eq_true, decide_eq_true_eq] at hs
  omega

theorem collapseWsAux_of_no_space {l : List Char} (h : ∀ c ∈ l, isPySpace c = false) :
    ∀ b, collapseWsAux b l = l := by
  induction l with
  | nil => intro b; rfl
  | cons c cs ih =>
    intro b
    have hc : isPySpace c = false := h c (List.mem_cons_self c cs)
    have hcs : ∀ x ∈ cs, isPySpace x = false := fun x hx => h x (List.mem_cons_of_mem c hx)
    simp [collapseWsAux, hc, ih hcs]

theorem stripUnderDash_sublist (l : List Char) : (stripUnderDash l).Sublist l := by
  unfold stripUnderDash
  exact ((List.rdropWhile_prefix _ _).sublist).trans (List.dropWhile_sublist _)

theorem dropWhile_head_false {p : Char → Bool} :
    ∀ {l : List Char} {c : Char} {t : List Char}, l.dropWhile p = c :: t → p c = false := by
  intro l
  induction l with
  | nil => intro c t h; simp [List.dropWhile] at h
  | cons a as ih =>
    intro c t h
    by_cases hp : p a = true
    · rw [List.dropWhile_cons, if_pos hp] at h
      exact ih h
    · rw [List.dropWhile_cons, if_neg hp] at h
      cases h
      simpa using hp

theorem stripUnderDash_head_not {l : List Char} {c : Char} {t : List Char}
    (h : stripUnderDash l = c :: t) : isUnderDash c = false := by
  unfold stripUnderDash at h
  obtain ⟨r, hr⟩ := List.rdropWhile_prefix isUnderDash (l.dropWhile isUnderDash)
  rw [h] at hr
  exact dropWhile_head_false (l := l) hr.symm

theorem stripUnderDash_getLast?_not {l t : List Char} {c : Char}
    (h4 : stripUnderDash l = t) (h : t.getLast? = some c) : isUnderDash c = false := by
  subst h4
  have hne : stripUnderDash l ≠ [] := by
    intro he; rw [he] at h; simp at h
  have h2 := List.rdropWhile_last_not isUnderDash (l.dropWhile isUnderDash) hne
  rw [List.getLast?_eq_getLast _ hne] at h
  have hc : (stripUnderDash l).getLast hne = c := by
    injection h
  rw [← hc]
  simpa using h2

theorem stripUnderDash_eq_self {l : List Char} (hl : l ≠ [])
    (hhead : ∀ c, l.head? = some c → isUnderDash c = false)
    (hlast : ∀ c, l.getLast? = some c → isUnderDash c = false) :
    stripUnderDash l = l := by
  unfold stripUnderDash
  have h1 : l.dropWhile isUnderDash = l := by
    rw [List.dropWhile_eq_self_iff]
    intro hpos
    cases l with
    | nil => simp at hl
    | cons a t =>
      have := hhead a rfl
      simp [this]
  rw [h1, List.rdropWhile_eq_self_iff]
  intro hne
  have := hlast (l.getLast hne) (List.getLast?_eq_getLast _ hne)
  simp [this]

/-- Characterization of `sanitizeSteps`: its result is either the literal
`"proj"` or a nonempty string of allowed characters whose first and last
characters are not `_`/`-`. -/
theorem sanitizeSteps_char (s : List Char) :
    sanitizeSteps s = "proj".data ∨
    (sanitizeSteps s ≠ [] ∧
      (∀ c ∈ sanitizeSteps s, isAllowedChar c = true) ∧
      (∀ c, (sanitizeSteps s).head? = some c → isUnderDash c = false) ∧
      (∀ c, (sanitizeSteps s).getLast? = some c → isUnderDash c = false)) := by
  have hall : ∀ c ∈ (collapseWs (s.map pyLowerChar)).filter isAllowedChar,
      isAllowedChar c = true := fun c hc => List.of_mem_filter hc
  have hs : sanitizeSteps s =
      (if stripUnderDash ((collapseWs (s.map pyLowerChar)).filter isAllowedChar) = [] ||
          headUnderDash (stripUnderDash ((collapseWs (s.map pyLowerChar)).filter isAllowedChar))
        then "proj".data ++ stripUnderDash ((collapseWs (s.map pyLowerChar)).filter isAllowedChar)
        else stripUnderDash ((collapseWs (s.map pyLowerChar)).filter isAllowedChar)) := rfl
  cases h4 : stripUnderDash ((collapseWs (s.map pyLowerChar)).filter isAllowedChar) with
  | nil =>
    left
    rw [hs, h4]
    simp [headUnderDash]
  | cons c t =>
    right
    have hhead : isUnderDash c = false := stripUnderDash_head_not h4
    have hs2 : sanitizeSteps s = c :: t := by
      rw [hs, h4]
      simp [headUnderDash, hhead]
    rw [hs2]
    refine ⟨by simp, ?_, ?_, ?_⟩
    · intro x hx
      have hsub : (c :: t).Sublist ((collapseWs (s.map pyLowerChar)).filter isAllowedChar) := by
        rw [← h4]; exact stripUnderDash_sublist _
      exact hall x (hsub.subset hx)
    · intro x hx
      simp only [List.head?_cons, Option.some.injEq] at hx
      rw [← hx]; exact hhead
    · intro x hx
      exact stripUnderDash_getLast?_not h4 hx

theorem sanitizeSteps_fixed {t : List Char} (hne : t ≠ [])
    (hall : ∀ c ∈ t, isAllowedChar c = true)
    (hhead : ∀ c, t.head? = some c → isUnderDash c = false)
    (hlast : ∀ c, t.getLast? = some c → isUnderDash c = false) :
    sanitizeSteps t = t := by
  have hmap : t.map pyLowerChar = t := by
    have : ∀ c ∈ t, pyLowerChar c = c := fun c hc => pyLowerChar_of_allowed (hall c hc)
    calc t.map pyLowerChar = t.map id := List.map_congr_left this
    _ = t := List.map_id t
  have hcollapse : collapseWs t = t :=
    collapseWsAux_of_no_space (fun c hc => not_isPySpace_of_allowed (hall c hc)) false
  have hfilter : t.filter isAllowedChar = t := List.filter_eq_self.mpr hall
  have hstrip : stripUnderDash t = t := stripUnderDash_eq_self hne hhead hlast
  have hcond : (t = [] || headUnderDash t) = false := by
    cases t with
    | nil => exact absurd rfl hne
    | cons c cs =>
      have := hhead c rfl
      simp [headUnderDash, this]
  show (if stripUnderDash ((collapseWs (t.map pyLowerChar)).filter isAllowedChar) = [] ||
      headUnderDash (stripUnderDash ((collapseWs (t.map pyLowerChar)).filter isAllowedChar))
      then "proj".data ++ stripUnderDash ((collapseWs (t.map pyLowerChar)).filter isAllowedChar)
      else stripUnderDash ((collapseWs (t.map pyLowerChar)).filter isAllowedChar)) = t
  rw [hmap, hcollapse, hfilter, hstrip, hcond]
  simp

theorem sanitize_eq_steps {s : List Char} (h : sanitizeSteps s ≠ []) :
    sanitize_for_docker s = sanitizeSteps s := by
  unfold sanitize_for_docker
  simp [h]

theorem proj_props : ("proj".data ≠ []) ∧
    (∀ c ∈ "proj".data, isAllowedChar c = true) ∧
    (∀ c, "proj".data.head? = some c → isUnderDash c = false) ∧
    (∀ c, "proj".data.getLast? = some c → isUnderDash c = false) := by
  decide

theorem sanitizeSteps_ne_nil (s : List Char) : sanitizeSteps s ≠ [] := by
  rcases sanitizeSteps_char s with h | ⟨hne, _⟩
  · rw [h]; exact proj_props.1
  · exact hne

theorem sanitize_output_props (s : List Char) :
    sanitize_for_docker s ≠ [] ∧
    (∀ c ∈ sanitize_for_docker s, isAllowedChar c = true) ∧
    (∀ c, (sanitize_for_docker s).head? = some c → isUnderDash c = false) ∧
    (∀ c, (sanitize_for_docker s).getLast? = some c → isUnderDash c = false) := by
  rw [sanitize_eq_steps (sanitizeSteps_ne_nil s)]
  rcases sanitizeSteps_char s with h | ⟨hne, hall, hhead, hlast⟩
  · rw [h]; exact proj_props
  · exact ⟨hne, hall, hhead, hlast⟩

/-- C1: the sanitizer is idempotent and its output is restricted to the
safe character set: for every input string `s`,
`sanitize_for_docker (sanitize_for_docker s) = sanitize_for_docker s`, and
`sanitize_for_docker s` matches `^[a-z0-9_-]+$` (it is nonempty and every
character is a lowercase letter, digit, underscore or hyphen). -/
theorem sanitize_for_docker_idempotent_and_safe (s : List Char) :
    sanitize_for_docker (sanitize_for_docker s) = sanitize_for_docker s ∧
    (sanitize_for_docker s ≠ [] ∧
      ∀ c ∈ sanitize_for_docker s, isAllowedChar c = true) := by
  obtain ⟨hne, hall, hhead, hlast⟩ := sanitize_output_props s
  refine ⟨?_, hne, hall⟩
  have hfix : sanitizeSteps (sanitize_for_docker s) = sanitize_for_docker s :=
    sanitizeSteps_fixed hne hall hhead hlast
  rw [sanitize_eq_steps (by rw [hfix]; exact hne), hfix]

/-- C2: the sanitizer is total (a Lean function) and never returns an empty
string: for every input string, including the empty string and strings of
characters outside `[a-z0-9_-]`, the output of `sanitize_for_docker` — the
pipeline lower-case / collapse whitespace to `_` / strip disallowed
characters / trim `_`-`-` / `proj`-prefix / `default_proj` fallback — has
positive length. -/
theorem sanitize_for_docker_never_empty (s : List Char) :
    0 < (sanitize_for_docker s).length := by
  have := (sanitize_output_props s).1
  cases h : sanitize_for_docker s with
  | nil => exact absurd h this
  | cons c t => simp

/-- Lowercase ASCII letter or ASCII digit — the class `[a-z0-9]`. -/
def isLowerDigit (c : Char) : Bool :=
  let n := charCode c
  (97 ≤ n && n ≤ 122) || (48 ≤ n && n ≤ 57)

/-- C10 (counterexample): the claim that `sanitize_for_docker` never
returns the literal `"default_proj"` is false — the input `"default_proj"`
itself sanitizes to `"default_proj"` (through the normal return, not the
fallback branch). -/
theorem sanitize_for_docker_returns_default_proj :
    sanitize_for_docker "default_proj".data = "default_proj".data := by decide

/-- C10 (amended): the final fallback branch of `sanitize_for_docker` is
unreachable — for every input string the value of `name` just before the
final return (`sanitizeSteps`) is non-empty, so the function returns that
value (the `"default_proj"` fallback branch is never taken), and the
result always begins with a character in `[a-z0-9]`.  (The literal
`"default_proj"` can still be returned, but only when the input itself
sanitizes to it, never via the fallback branch.) -/
theorem sanitize_for_docker_fallback_unreachable (s : List Char) :
    sanitizeSteps s ≠ [] ∧
    sanitize_for_docker s = sanitizeSteps s ∧
    (∀ c, (sanitize_for_docker s).head? = some c → isLowerDigit c = true) := by
  refine ⟨sanitizeSteps_ne_nil s, sanitize_eq_steps (sanitizeSteps_ne_nil s), ?_⟩
  intro c hc
  obtain ⟨_, hall, hhead, _⟩ := sanitize_output_props s
  have hmem : c ∈ sanitize_for_docker s := by
    cases h : sanitize_for_docker s with
    | nil => rw [h] at hc; simp at hc
    | cons a t =>
      rw [h] at hc
      simp only [List.head?_cons, Option.some.injEq] at hc
      rw [← hc]
      exact List.mem_cons_self a t
  have h1 := hall c hmem
  have h2 := hhead c hc
  simp only [isAllowedChar, Bool.or_eq_true, Bool.and_eq_true, decide_eq_true_eq] at h1
  simp only [isLowerDigit, Bool.or_eq_true, Bool.and_eq_true, decide_eq_true_eq]
  rcases h1 with ((h1 | h1) | h1) | h1
  · exact Or.inl h1
  · exact Or.inr h1
  · exfalso
    rw [Bool.eq_false_iff] at h2
    exact h2 (by simp [isUnderDash, h1])
  · exfalso
    rw [Bool.eq_false_iff] at h2
    exact h2 (by simp [isUnderDash, h1])

-- ### Python `int()` and the port prompt of `main` (claim C3)

/-- Python `str.strip()` with no argument: remove Unicode whitespace from
both ends. -/
def pyStrip (s : List Char) : List Char :=
  List.rdropWhile isPySpace (s.dropWhile isPySpace)

/-- ASCII decimal digit.  (Python `int()` also accepts non-ASCII Unicode
decimal digits; the embedding restricts to ASCII, which covers every
string the claim's property quantifies over in the same way.) -/
def isAsciiDigit (c : Char) : Bool := 48 ≤ charCode c && charCode c ≤ 57

/-- The digit run accepted by Python `int()` after the optional sign:
digits with single underscores allowed between two digits
(PEP 515: `int("1_0") == 10`, while `"_1"`, `"1_"`, `"1__2"` raise
`ValueError`).  The boolean argument records whether the previous
character was a digit; the parse must end on a digit. -/
def intBody (acc : Nat) (afterDigit : Bool) : List Char → Option Nat
  | [] => if afterDigit then some acc else none
  | c :: cs =>
    if isAsciiDigit c then intBody (10 * acc + (charCode c - 48)) true cs
    else if charCode c = 95 && afterDigit then intBody acc false cs
    else none

/-- Python `int(s)` for a string argument: strip whitespace, optional
`+`/`-` sign, then a digit run; `none` models `ValueError`. -/
def pyInt (s : List Char) : Option Int :=
  match pyStrip s with
  | [] => none
  | c :: rest =>
    if c = '+' then (intBody 0 false rest).map (fun n => (n : Int))
    else if c = '-' then (intBody 0 false rest).map (fun n => -(n : Int))
    else (intBody 0 false (c :: rest)).map (fun n => (n : Int))

/-- The port-validation step of `main` (`setup.py`): `int()` the entered
string inside `try`; accept iff `1 <= port_num <= 65535`; a `ValueError`
or an out-of-range value causes a re-prompt (rejection). -/
def portAccept (s : List Char) : Bool :=
  match pyInt s with
  | some n => decide (1 ≤ n) && decide (n ≤ 65535)
  | none => false

/-- C3: port validation accepts an input string exactly when it parses as
an integer in `[1, 65535]`; in particular `"9997"` is accepted while
`"99999"`, `"abc"`, `"0"` and `"-42"` are rejected (re-prompt). -/
theorem port_validation_exact :
    (∀ s : List Char, portAccept s = true ↔
      ∃ n : Int, pyInt s = some n ∧ 1 ≤ n ∧ n ≤ 65535) ∧
    portAccept "9997".data = true ∧
    portAccept "99999".data = false ∧
    portAccept "abc".data = false ∧
    portAccept "0".data = false ∧
    portAccept "-42".data = false := by
  refine ⟨?_, by decide, by decide, by decide, by decide, by decide⟩
  intro s
  unfold portAccept
  cases h : pyInt s with
  | none => simp
  | some n => simp

-- ### The target-host prompt of `main` (claim C4)

/-- The host-validation step of `main` (`setup.py`): after stripping, an
empty candidate is rejected, a candidate containing a space `" "` or a
slash `"/"` is rejected (`indexer_ip = ""` forces a re-prompt), anything
else is accepted. -/
def hostAccept (s : List Char) : Bool :=
  if s.isEmpty then false
  else if s.contains ' ' || s.contains '/' then false
  else true

/-- C4 (counterexample): the claim that every candidate containing any
whitespace character is rejected is false — the code only tests for the
space character, so the candidate `"a<TAB>b"`, which contains the
whitespace character TAB, is accepted. -/
theorem host_validation_accepts_tab :
    hostAccept ['a', '\t', 'b'] = true ∧
    '\t' ∈ ['a', '\t', 'b'] ∧
    isPySpace '\t' = true := by decide

/-- C4 (amended): host validation rejects exactly the candidates that are
empty or contain a space character `' '` or `'/'`; every non-empty
candidate containing neither `' '` nor `'/'` is accepted (other whitespace
characters such as TAB are not checked). -/
theorem host_validation_space_slash (s : List Char) :
    hostAccept s = true ↔ (s ≠ [] ∧ ' ' ∉ s ∧ '/' ∉ s) := by
  unfold hostAccept
  cases s with
  | nil => simp
  | cons c t =>
    simp only [List.isEmpty_cons, if_neg]
    constructor
    · intro h
      by_cases hsp : (c :: t).contains ' ' || (c :: t).contains '/'
      · rw [if_pos hsp] at h; exact absurd h (by simp)
      · rw [if_neg hsp] at h
        simp only [Bool.or_eq_true, List.elem_iff] at hsp
        push_neg at hsp
        exact ⟨by simp, hsp.1, hsp.2⟩
    · intro ⟨_, h1, h2⟩
      have : ((c :: t).contains ' ' || (c :: t).contains '/') = false := by
        rw [Bool.or_eq_false_iff]
        constructor <;> rw [Bool.eq_false_iff] <;> intro hm
        · exact h1 (List.elem_iff.mp hm)
        · exact h2 (List.elem_iff.mp hm)
      rw [this]
      simp

-- ### Splitting text into lines (used by the `.gitignore` update and to
-- ### state line-level properties of stderr)

/-- Split a character list at every newline; `splitNl "a\nb" = ["a","b"]`,
with a trailing empty chunk after a final newline. -/
def splitNl : List Char → List (List Char)
  | [] => [[]]
  | c :: rest =>
    if c = '\n' then [] :: splitNl rest
    else
      match splitNl rest with
      | [] => [[c]]
      | l :: ls => (c :: l) :: ls

theorem splitNl_ne_nil (s : List Char) : splitNl s ≠ [] := by
  induction s with
  | nil => simp [splitNl]
  | cons c rest ih =>
    unfold splitNl
    by_cases h : c = '\n'
    · simp [h]
    · rw [if_neg h]
      cases hs : splitNl rest with
      | nil => simp
      | cons l ls => simp

theorem splitNl_nl (rest : List Char) : splitNl ('\n' :: rest) = [] :: splitNl rest := by
  conv_lhs => rw [splitNl.eq_def]
  simp

theorem splitNl_cons_ne {c : Char} (h : c ≠ '\n') (rest : List Char) :
    splitNl (c :: rest) =
      match splitNl rest with
      | [] => [[c]]
      | l :: ls => (c :: l) :: ls := by
  conv_lhs => rw [splitNl.eq_def]
  simp [h]

theorem splitNl_append (x y : List Char) :
    splitNl (x ++ '\n' :: y) = splitNl x ++ splitNl y := by
  induction x with
  | nil => simp [splitNl, splitNl_nl]
  | cons c x' ih =>
    by_cases h : c = '\n'
    · subst h
      rw [List.cons_append, splitNl_nl, splitNl_nl, ih, List.cons_append]
    · rw [List.cons_append, splitNl_cons_ne h, splitNl_cons_ne h, ih]
      cases hs : splitNl x' with
      | nil => exact absurd hs (splitNl_ne_nil x')
      | cons l ls => simp

theorem splitNl_no_newline {x : List Char} (h : '\n' ∉ x) : splitNl x = [x] := by
  induction x with
  | nil => rfl
  | cons c x' ih =>
    have hc : c ≠ '\n' := fun he => h (he ▸ List.mem_cons_self c x')
    have hx' : '\n' ∉ x' := fun hm => h (List.mem_cons_of_mem c hm)
    unfold splitNl
    rw [if_neg hc, ih hx']

-- ### The stderr whitelist of `run_command` (claim C5)

/-- Python's substring test `pat in s`. -/
def containsSub (pat : List Char) : List Char → Bool
  | [] => pat.isEmpty
  | c :: rest => pat.isPrefixOf (c :: rest) || containsSub pat rest

/-- The fixed benign-stderr whitelist of `run_command` (`setup.py`). -/
def benign_patterns : List (List Char) :=
  ["no such container".data, "network not found".data, "removing network".data,
   "removing volume".data, "already exists".data]

/-- The `is_benign_error` flag of `run_command`: set iff stderr is
non-empty and the lowercased stderr contains one of the benign patterns
anywhere (a whole-output test, not a per-line test). -/
def is_benign_error (stderr : List Char) : Bool :=
  !stderr.isEmpty && benign_patterns.any (fun pat => containsSub pat (stderr.map pyLowerChar))

/-- Whether `run_command` prints the captured stderr as error output:
`if result.stderr and result.stderr.strip() and not is_benign_error`. -/
def stderrDisplayed (stderr : List Char) : Bool :=
  !stderr.isEmpty && !(pyStrip stderr).isEmpty && !is_benign_error stderr

/-- C5 (counterexample): suppression is not line-by-line — a stderr whose
second line matches the benign pattern `"already exists"` is suppressed
wholesale, swallowing its first line `"fatal failure"` even though that
line matches no benign pattern. -/
theorem stderr_line_suppression_counterexample :
    stderrDisplayed "fatal failure\nalready exists".data = false ∧
    (pyStrip "fatal failure\nalready exists".data).isEmpty = false ∧
    "fatal failure".data ∈ splitNl "fatal failure\nalready exists".data ∧
    benign_patterns.all
      (fun pat => !containsSub pat ("fatal failure".data.map pyLowerChar)) = true := by
  decide

/-- C5 (amended): suppression operates on the whole captured stderr, not
on individual lines: stderr is printed as error output exactly when it is
non-blank after stripping and its lowercased text contains none of the
five benign substrings anywhere; in particular a stderr containing no
benign substring is always printed, but a single benign substring
suppresses the entire output including any non-benign lines. -/
theorem stderr_suppression_whole_output (s : List Char) :
    stderrDisplayed s = true ↔
      (pyStrip s ≠ [] ∧
        ∀ pat ∈ benign_patterns, containsSub pat (s.map pyLowerChar) = false) := by
  unfold stderrDisplayed is_benign_error
  cases s with
  | nil =>
    have : pyStrip ([] : List Char) = [] := rfl
    simp [this]
  | cons c t =>
    simp only [List.isEmpty_cons, Bool.not_false, Bool.true_and, Bool.and_eq_true,
      Bool.not_eq_true', List.any_eq_true, Bool.and_eq_true]
    constructor
    · intro ⟨h1, h2⟩
      refine ⟨by simpa using h1, ?_⟩
      intro pat hpat
      by_contra hne
      rw [Bool.not_eq_false] at hne
      have : (benign_patterns.any
          (fun pat => containsSub pat ((c :: t).map pyLowerChar))) = true := by
        rw [List.any_eq_true]
        exact ⟨pat, hpat, hne⟩
      rw [this] at h2
      simp at h2
    · intro ⟨h1, h2⟩
      refine ⟨by simpa using h1, ?_⟩
      have : (benign_patterns.any
          (fun pat => containsSub pat ((c :: t).map pyLowerChar))) = false := by
        rw [Bool.eq_false_iff]
        intro hany
        obtain ⟨pat, hpat, hc⟩ := List.any_eq_true.mp hany
        rw [h2 pat hpat] at hc
        simp at hc
      rw [this]

-- ### The root `.gitignore` update of `main` (claim C6)

/-- The ignore entry appended for an instance:
`f"/{instance_dir.relative_to(parent_dir).as_posix()}/"`, i.e. the
sanitized project name wrapped in slashes. -/
def ignoreEntryOf (p : List Char) : List Char := '/' :: (p ++ ['/'])

/-- The comment line written above the entry:
`f"# Ignore generated instance '{project_name_sanitized}'"`. -/
def ignoreCommentOf (p : List Char) : List Char :=
  "# Ignore generated instance \x27".data ++ (p ++ ['\x27'])

/-- The set of existing entries read from `.gitignore`:
`set(line.strip() for line in f if line.strip())`, modelled as a list of
stripped non-empty lines with membership as the set test. -/
def gitignoreEntries (content : List Char) : List (List Char) :=
  ((splitNl content).map pyStrip).filter (fun l => !l.isEmpty)

/-- The `.gitignore` update of `main` (`setup.py`): if the entry is not
among the stripped lines, append
`f"\n# Ignore generated instance '{p}'\n{ignore_entry}\n"`; a missing
file is the empty content. -/
def updateGitignore (p content : List Char) : List Char :=
  if ignoreEntryOf p ∈ gitignoreEntries content then content
  else content ++ '\n' :: (ignoreCommentOf p ++ '\n' :: (ignoreEntryOf p ++ ['\n']))

/-- Number of lines of the file whose stripped form equals the instance's
ignore entry. -/
def countIgnoreEntry (p content : List Char) : Nat :=
  ((splitNl content).filter (fun l => pyStrip l == ignoreEntryOf p)).length

theorem stripEnds_eq_self {p : Char → Bool} {l : List Char} (hl : l ≠ [])
    (hhead : ∀ c, l.head? = some c → p c = false)
    (hlast : ∀ c, l.getLast? = some c → p c = false) :
    List.rdropWhile p (l.dropWhile p) = l := by
  have h1 : l.dropWhile p = l := by
    rw [List.dropWhile_eq_self_iff]
    intro hpos
    cases l with
    | nil => simp at hl
    | cons a t =>
      have := hhead a rfl
      simp [this]
  rw [h1, List.rdropWhile_eq_self_iff]
  intro hne
  have := hlast (l.getLast hne) (List.getLast?_eq_getLast _ hne)
  simp [this]

theorem pyStrip_ignoreEntry (p : List Char) :
    pyStrip (ignoreEntryOf p) = ignoreEntryOf p := by
  apply stripEnds_eq_self (by simp [ignoreEntryOf])
  · intro c hc
    have : (ignoreEntryOf p).head? = some '/' := rfl
    rw [this] at hc
    injection hc with hc
    rw [← hc]
    decide
  · intro c hc
    have : (ignoreEntryOf p).getLast? = some '/' := by
      show ('/' :: (p ++ ['/'])).getLast? = some '/'
      rw [show ('/' :: (p ++ ['/'])) = ('/' :: p) ++ ['/'] from rfl]
      exact List.getLast?_concat _
    rw [this] at hc
    injection hc with hc
    rw [← hc]
    decide

theorem pyStrip_ignoreComment (p : List Char) :
    pyStrip (ignoreCommentOf p) = ignoreCommentOf p := by
  apply stripEnds_eq_self (by simp [ignoreCommentOf])
  · intro c hc
    have : (ignoreCommentOf p).head? = some '#' := rfl
    rw [this] at hc
    injection hc with hc
    rw [← hc]
    decide
  · intro c hc
    have : (ignoreCommentOf p).getLast? = some '\x27' := by
      show ("# Ignore generated instance \x27".data ++ (p ++ ['\x27'])).getLast? = some '\x27'
      rw [show "# Ignore generated instance \x27".data ++ (p ++ ['\x27']) =
        ("# Ignore generated instance \x27".data ++ p) ++ ['\x27'] by rw [List.append_assoc]]
      exact List.getLast?_concat _
    rw [this] at hc
    injection hc with hc
    rw [← hc]
    decide

theorem not_newline_ignoreEntry {p : List Char} (hp : '\n' ∉ p) :
    '\n' ∉ ignoreEntryOf p := by
  intro h
  rcases List.mem_cons.mp h with h | h
  · exact absurd h (by decide)
  · rcases List.mem_append.mp h with h | h
    · exact hp h
    · exact absurd h (by decide)

theorem not_newline_ignoreComment {p : List Char} (hp : '\n' ∉ p) :
    '\n' ∉ ignoreCommentOf p := by
  intro h
  rcases List.mem_append.mp h with h | h
  · exact absurd h (by decide)
  · rcases List.mem_append.mp h with h | h
    · exact hp h
    · exact absurd h (by decide)

theorem splitNl_update_suffix (p content : List Char) (hp : '\n' ∉ p) :
    splitNl (content ++ '\n' :: (ignoreCommentOf p ++ '\n' :: (ignoreEntryOf p ++ ['\n']))) =
      splitNl content ++ [ignoreCommentOf p, ignoreEntryOf p, []] := by
  rw [splitNl_append, splitNl_append,
    show ignoreEntryOf p ++ ['\n'] = ignoreEntryOf p ++ '\n' :: [] from rfl,
    splitNl_append, splitNl_no_newline (not_newline_ignoreComment hp),
    splitNl_no_newline (not_newline_ignoreEntry hp)]
  rfl

theorem mem_entries_iff_count (p content : List Char) :
    ignoreEntryOf p ∈ gitignoreEntries content ↔ countIgnoreEntry p content ≠ 0 := by
  unfold gitignoreEntries countIgnoreEntry
  constructor
  · intro h
    rw [List.mem_filter] at h
    obtain ⟨l, hl, hstrip⟩ := List.mem_map.mp h.1
    intro hlen
    rw [List.length_eq_zero] at hlen
    have hmem : l ∈ (splitNl content).filter (fun l => pyStrip l == ignoreEntryOf p) := by
      rw [List.mem_filter]
      refine ⟨hl, ?_⟩
      rw [hstrip]
      exact beq_self_eq_true _
    rw [hlen] at hmem
    simp at hmem
  · intro h
    have hne : (splitNl content).filter (fun l => pyStrip l == ignoreEntryOf p) ≠ [] := by
      intro he
      rw [he] at h
      simp at h
    obtain ⟨l, hl⟩ := List.exists_mem_of_ne_nil _ hne
    rw [List.mem_filter] at hl
    have heq : pyStrip l = ignoreEntryOf p := by simpa using hl.2
    rw [List.mem_filter]
    refine ⟨List.mem_map.mpr ⟨l, hl.1, heq⟩, by simp [ignoreEntryOf]⟩

/-- C6 (counterexample): starting from a `.gitignore` that already holds
the entry `"/x/"` twice, running the update twice leaves two occurrences,
not exactly one — the update never removes pre-existing duplicates. -/
theorem gitignore_double_update_two_occurrences :
    countIgnoreEntry "x".data
      (updateGitignore "x".data (updateGitignore "x".data "/x/\n/x/\n".data)) = 2 := by
  decide

/-- C6 (amended): the `.gitignore` update is idempotent as a file
transformation (`update (update f) = update f`), appends the entry only if
that exact line (after stripping) is not already present, and when the
initial file contains no occurrence of the entry line, running the update
(once or twice) leaves exactly one occurrence.  A file that already holds
duplicate occurrences keeps them. -/
theorem gitignore_update_props (p content : List Char) (hp : '\n' ∉ p) :
    updateGitignore p (updateGitignore p content) = updateGitignore p content ∧
    (ignoreEntryOf p ∈ gitignoreEntries content → updateGitignore p content = content) ∧
    (countIgnoreEntry p content = 0 →
      countIgnoreEntry p (updateGitignore p content) = 1) := by
  by_cases hmem : ignoreEntryOf p ∈ gitignoreEntries content
  · have hupd : updateGitignore p content = content := by
      unfold updateGitignore
      rw [if_pos hmem]
    refine ⟨by rw [hupd]; exact hupd, fun _ => hupd, fun h0 => ?_⟩
    exact absurd h0 ((mem_entries_iff_count p content).mp hmem)
  · have hupd : updateGitignore p content =
        content ++ '\n' :: (ignoreCommentOf p ++ '\n' :: (ignoreEntryOf p ++ ['\n'])) := by
      unfold updateGitignore
      rw [if_neg hmem]
    have hlines := splitNl_update_suffix p content hp
    have hce : (pyStrip (ignoreCommentOf p) == ignoreEntryOf p) = false := by
      rw [pyStrip_ignoreComment, beq_eq_false_iff_ne]
      intro he
      have h1 : (ignoreCommentOf p).head? = some '#' := rfl
      have h2 : (ignoreEntryOf p).head? = some '/' := rfl
      rw [he, h2] at h1
      simp at h1
    have hee : (pyStrip (ignoreEntryOf p) == ignoreEntryOf p) = true := by
      rw [pyStrip_ignoreEntry]
      exact beq_self_eq_true _
    have hnil : (pyStrip ([] : List Char) == ignoreEntryOf p) = false := by
      rw [beq_eq_false_iff_ne]
      intro he
      have : pyStrip ([] : List Char) = [] := rfl
      rw [this] at he
      simp [ignoreEntryOf] at he
    have hmem2 : ignoreEntryOf p ∈ gitignoreEntries (updateGitignore p content) := by
      rw [hupd]
      unfold gitignoreEntries
      rw [hlines, List.map_append]
      apply List.mem_filter.mpr
      refine ⟨List.mem_append_right _ ?_, by simp [ignoreEntryOf]⟩
      have hmap : ([ignoreCommentOf p, ignoreEntryOf p, []].map pyStrip) =
          [ignoreCommentOf p, ignoreEntryOf p, pyStrip []] := by
        simp [pyStrip_ignoreComment p, pyStrip_ignoreEntry p]
      rw [hmap]
      simp
    refine ⟨?_, fun hm => absurd hm hmem, fun h0 => ?_⟩
    · conv_lhs => rw [updateGitignore]
      rw [if_pos hmem2]
    · have h0' : ((splitNl content).filter (fun l => pyStrip l == ignoreEntryOf p)).length = 0 := h0
      unfold countIgnoreEntry
      rw [hupd, hlines, List.filter_append, List.length_append, h0']
      simp [List.filter, hce, hee, hnil]

/-- Witness for `gitignore_update_props` at the concrete instance name
`"x"` and an initially empty (missing) `.gitignore`. -/
theorem gitignore_update_props_witness :
    ('\n' ∉ "x".data) ∧
    (updateGitignore "x".data (updateGitignore "x".data []) = updateGitignore "x".data [] ∧
      (ignoreEntryOf "x".data ∈ gitignoreEntries [] → updateGitignore "x".data [] = []) ∧
      (countIgnoreEntry "x".data [] = 0 →
        countIgnoreEntry "x".data (updateGitignore "x".data []) = 1)) :=
  ⟨by decide, gitignore_update_props "x".data [] (by decide)⟩

-- ### JSON (`json.load` / `json.dump`) as used by `load_setup_config`
-- ### and `save_setup_config` (claims C7, C8)

/-- JSON values as produced by Python's `json` module.  Numbers are kept
as their source lexeme (the program never stores numbers, so their
numeric interpretation is irrelevant to the claims); objects are
key-ordered mappings like Python dicts. -/
inductive Json where
  | str : List Char → Json
  | num : List Char → Json
  | bool : Bool → Json
  | null : Json
  | arr : List Json → Json
  | obj : List (List Char × Json) → Json

/-- JSON inter-token whitespace (`json.decoder.WHITESPACE`). -/
def jsonWsChar (c : Char) : Bool := c = ' ' || c = '\t' || c = '\n' || c = '\r'

def skipWs (s : List Char) : List Char := s.dropWhile jsonWsChar

/-- Value of one hexadecimal digit (both cases), as accepted by the
`\uXXXX` escapes of `json.decoder`. -/
def hexVal (c : Char) : Option Nat :=
  let n := charCode c
  if 48 ≤ n && n ≤ 57 then some (n - 48)
  else if 97 ≤ n && n ≤ 102 then some (n - 87)
  else if 65 ≤ n && n ≤ 70 then some (n - 55)
  else none

/-- Four hex digits, most significant first. -/
def hex4 : List Char → Option (Nat × List Char)
  | a :: b :: c :: d :: rest =>
    match hexVal a, hexVal b, hexVal c, hexVal d with
    | some x, some y, some z, some w => some (4096 * x + 256 * y + 16 * z + w, rest)
    | _, _, _, _ => none
  | _ => none

/-- The string scanner of `json.decoder` (strict mode), after the opening
quote: literal characters up to the closing quote, backslash escapes
(`" \ / b f n r t` and `\uXXXX` with surrogate pairs), and an error on
raw control characters.  Python represents a lone surrogate as a
surrogate code unit in its `str`; such a code point is not a Unicode
scalar value and has no `Char` counterpart, so the model rejects lone
surrogates (they never occur in output of `json.dump`, which always
writes astral characters as proper pairs).  The fuel argument bounds the
number of decoded characters; each iteration consumes at least one input
character, so `input length + 1` is always enough. -/
def pStrBody : Nat → List Char → Option (List Char × List Char)
  | 0, _ => none
  | _ + 1, [] => none
  | fuel + 1, c :: rest =>
    if c = '"' then some ([], rest)
    else if c = '\\' then
      match rest with
      | [] => none
      | e :: rest2 =>
        if e = '"' then (pStrBody fuel rest2).map (fun r => ('"' :: r.1, r.2))
        else if e = '\\' then (pStrBody fuel rest2).map (fun r => ('\\' :: r.1, r.2))
        else if e = '/' then (pStrBody fuel rest2).map (fun r => ('/' :: r.1, r.2))
        else if e = 'b' then (pStrBody fuel rest2).map (fun r => (Char.ofNat 8 :: r.1, r.2))
        else if e = 'f' then (pStrBody fuel rest2).map (fun r => (Char.ofNat 12 :: r.1, r.2))
        else if e = 'n' then (pStrBody fuel rest2).map (fun r => ('\n' :: r.1, r.2))
        else if e = 'r' then (pStrBody fuel rest2).map (fun r => (Char.ofNat 13 :: r.1, r.2))
        else if e = 't' then (pStrBody fuel rest2).map (fun r => ('\t' :: r.1, r.2))
        else if e = 'u' then
          match hex4 rest2 with
          | none => none
          | some (n, rest3) =>
            if 0xd800 ≤ n ∧ n ≤ 0xdbff then
              match rest3 with
              | '\\' :: 'u' :: rest4 =>
                match hex4 rest4 with
                | none => none
                | some (m, rest5) =>
                  if 0xdc00 ≤ m ∧ m ≤ 0xdfff then
                    (pStrBody fuel rest5).map (fun r =>
                      (Char.ofNat (0x10000 + (n - 0xd800) * 1024 + (m - 0xdc00)) :: r.1, r.2))
                  else none
              | _ => none
            else if 0xdc00 ≤ n ∧ n ≤ 0xdfff then none
            else (pStrBody fuel rest3).map (fun r => (Char.ofNat n :: r.1, r.2))
        else none
    else if charCode c < 32 then none
    else (pStrBody fuel rest).map (fun r => (c :: r.1, r.2))

def spanDigits (s : List Char) : List Char × List Char :=
  (s.takeWhile isAsciiDigit, s.dropWhile isAsciiDigit)

/-- Optional fractional part `(\.\d+)?` of the JSON number regex; returns
the matched lexeme and the remaining input. -/
def pFrac (s : List Char) : List Char × List Char :=
  match s with
  | '.' :: t =>
    match spanDigits t with
    | ([], _) => ([], s)
    | (ds, r) => ('.' :: ds, r)
  | _ => ([], s)

/-- Optional exponent part `([eE][-+]?\d+)?` of the JSON number regex. -/
def pExp (s : List Char) : List Char × List Char :=
  match s with
  | e :: t =>
    if e = 'e' || e = 'E' then
      match t with
      | c :: u =>
        if c = '+' || c = '-' then
          match spanDigits u with
          | ([], _) => ([], s)
          | (ds, r) => (e :: c :: ds, r)
        else
          match spanDigits t with
          | ([], _) => ([], s)
          | (ds, r) => (e :: ds, r)
      | [] => ([], s)
    else ([], s)
  | [] => ([], s)

/-- The JSON number regex `(-?(?:0|[1-9]\d*))(\.\d+)?([eE][-+]?\d+)?` of
`json.decoder`, keeping the matched lexeme. -/
def pNum (s : List Char) : Option (Json × List Char) :=
  let signed : List Char × List Char :=
    match s with
    | '-' :: t => (['-'], t)
    | _ => ([], s)
  match signed.2 with
  | c :: t =>
    if c = '0' then
      let f := pFrac t
      let e := pExp f.2
      some (Json.num (signed.1 ++ '0' :: (f.1 ++ e.1)), e.2)
    else if isAsciiDigit c then
      let ds := spanDigits t
      let f := pFrac ds.2
      let e := pExp f.2
      some (Json.num (signed.1 ++ c :: (ds.1 ++ (f.1 ++ e.1))), e.2)
    else none
  | [] => none

/-- Python `dict` update: `dict(pairs)` keeps the first position of a key
and the last value bound to it. -/
def dictInsert (m : List (List Char × Json)) (k : List Char) (v : Json) :
    List (List Char × Json) :=
  match m with
  | [] => [(k, v)]
  | (k', v') :: rest => if k' = k then (k', v) :: rest else (k', v') :: dictInsert rest k v

def dictOfPairs (ps : List (List Char × Json)) : List (List Char × Json) :=
  ps.foldl (fun m kv => dictInsert m kv.1 kv.2) []

mutual

/-- The value scanner of `json.decoder`: skip whitespace, then dispatch on
the first character (object, array, string, literal constant, number).
The fuel bounds the nesting/sequence recursion; every recursive call
consumes at least one input character, so `input length + 1` suffices. -/
def pValue : Nat → List Char → Option (Json × List Char)
  | 0, _ => none
  | fuel + 1, s0 =>
    match skipWs s0 with
    | [] => none
    | c :: rest =>
      if c = '{' then
        if (skipWs rest).head? = some '}' then some (Json.obj [], (skipWs rest).tail)
        else pMembers fuel [] (skipWs rest)
      else if c = '[' then
        if (skipWs rest).head? = some ']' then some (Json.arr [], (skipWs rest).tail)
        else pElems fuel [] (skipWs rest)
      else if c = '"' then
        (pStrBody (rest.length + 1) rest).map (fun r => (Json.str r.1, r.2))
      else if "true".data.isPrefixOf (c :: rest) then some (Json.bool true, rest.drop 3)
      else if "false".data.isPrefixOf (c :: rest) then some (Json.bool false, rest.drop 4)
      else if "null".data.isPrefixOf (c :: rest) then some (Json.null, rest.drop 3)
      else if "NaN".data.isPrefixOf (c :: rest) then some (Json.num "NaN".data, rest.drop 2)
      else if "Infinity".data.isPrefixOf (c :: rest) then
        some (Json.num "Infinity".data, rest.drop 7)
      else if "-Infinity".data.isPrefixOf (c :: rest) then
        some (Json.num "-Infinity".data, rest.drop 8)
      else pNum (c :: rest)

/-- The object scanner of `json.decoder`, positioned at a key quote:
`"key" : value` pairs separated by `,`, ended by `}`; the collected pairs
go through `dict(pairs)`. -/
def pMembers : Nat → List (List Char × Json) → List Char → Option (Json × List Char)
  | 0, _, _ => none
  | fuel + 1, acc, s =>
    if s.head? = some '"' then
      match pStrBody (s.tail.length + 1) s.tail with
      | none => none
      | some (k, r1) =>
        if (skipWs r1).head? = some ':' then
          match pValue fuel ((skipWs r1).tail) with
          | none => none
          | some (v, r3) =>
            if (skipWs r3).head? = some ',' then
              pMembers fuel (acc ++ [(k, v)]) (skipWs ((skipWs r3).tail))
            else if (skipWs r3).head? = some '}' then
              some (Json.obj (dictOfPairs (acc ++ [(k, v)])), (skipWs r3).tail)
            else none
        else none
    else none

/-- The array scanner of `json.decoder`. -/
def pElems : Nat → List Json → List Char → Option (Json × List Char)
  | 0, _, _ => none
  | fuel + 1, acc, s =>
    match pValue fuel s with
    | none => none
    | some (v, r1) =>
      if (skipWs r1).head? = some ',' then pElems fuel (acc ++ [v]) ((skipWs r1).tail)
      else if (skipWs r1).head? = some ']' then some (Json.arr (acc ++ [v]), (skipWs r1).tail)
      else none

end

/-- `json.loads` / `json.load`: parse one value and require only trailing
whitespace after it; `none` models `json.JSONDecodeError`. -/
def jsonParse (s : List Char) : Option Json :=
  match pValue (s.length + 1) s with
  | none => none
  | some (v, rest) => if (skipWs rest).isEmpty then some v else none

/-- `load_setup_config` of `setup.py`.  The argument models the state of
the config file: `none` for a missing file (`config_path.exists()` is
false), `some content` for its text.  A parse failure prints a warning
and falls through to `return \x7b\x7d`. -/
def load_setup_config : Option (List Char) → Json
  | none => Json.obj []
  | some content =>
    match jsonParse content with
    | some v => v
    | none => Json.obj []

def hexDigits : List Char := "0123456789abcdef".data

def hexDig (n : Nat) : Char := hexDigits.getD n '0'

/-- Four lowercase hex digits, as produced by `'\\u%04x'` in
`json.encoder` (values below `0x10000`). -/
def toHex4 (n : Nat) : List Char :=
  [hexDig (n / 4096 % 16), hexDig (n / 256 % 16), hexDig (n / 16 % 16), hexDig (n % 16)]

/-- `json.encoder.py_encode_basestring_ascii` for one character: the named
escapes for `\ " \b \f \n \r \t`, `\u00xx` for other control characters,
the character itself for printable ASCII, `\uxxxx` for other characters
below `0x10000`, and a surrogate pair for astral characters (the bit
operations `0xd800 | ((n >> 10) & 0x3ff)` and `0xdc00 | (n & 0x3ff)` are
written with division/modulus, which coincide on this range). -/
def escChar (c : Char) : List Char :=
  if charCode c = 92 then ['\\', '\\']
  else if charCode c = 34 then ['\\', '"']
  else if charCode c = 8 then ['\\', 'b']
  else if charCode c = 12 then ['\\', 'f']
  else if charCode c = 10 then ['\\', 'n']
  else if charCode c = 13 then ['\\', 'r']
  else if charCode c = 9 then ['\\', 't']
  else if charCode c < 32 then '\\' :: 'u' :: toHex4 (charCode c)
  else if charCode c ≤ 126 then [c]
  else if charCode c < 65536 then '\\' :: 'u' :: toHex4 (charCode c)
  else
    ('\\' :: 'u' :: toHex4 (0xd800 + (charCode c - 65536) / 1024)) ++
      ('\\' :: 'u' :: toHex4 (0xdc00 + (charCode c - 65536) % 1024))

/-- An encoded JSON string with its quotes. -/
def dumpStr (s : List Char) : List Char := '"' :: ((s.map escChar).flatten ++ ['"'])

/-- The member lines written by `json.dump(d, f, indent=4)` for a flat
string-valued dict: each on its own line indented four spaces, separated
by commas. -/
def dumpItems : List (List Char × List Char) → List Char
  | [] => []
  | [(k, v)] => "    ".data ++ (dumpStr k ++ (": ".data ++ dumpStr v))
  | (k, v) :: rest =>
    "    ".data ++ (dumpStr k ++ (": ".data ++ (dumpStr v ++ ',' :: '\n' :: dumpItems rest)))

/-- `save_setup_config` of `setup.py`: the text `json.dump(config_data, f,
indent=4)` writes for the flat string-valued dict `config_data` (the
function's observable effect; an `IOError` is only logged). -/
def save_setup_config (kvs : List (List Char × List Char)) : List Char :=
  match kvs with
  | [] => "\x7b\x7d".data
  | _ :: _ => '{' :: '\n' :: (dumpItems kvs ++ '\n' :: ['}'])

/-- C7: preference loading never fails the run — `load_setup_config`
returns the empty mapping when the file is missing, and returns the empty
mapping (after logging a warning) on any content the JSON parser rejects;
being a total Lean function, it never raises. -/
theorem load_setup_config_never_fails :
    load_setup_config none = Json.obj [] ∧
    (∀ content : List Char,
      jsonParse content = none → load_setup_config (some content) = Json.obj []) := by
  refine ⟨rfl, ?_⟩
  intro content h
  show (match jsonParse content with | some v => v | none => Json.obj []) = Json.obj []
  rw [h]

/-- Witness for `load_setup_config_never_fails` at the concrete corrupt
content `"\x7bnot json"`. -/
theorem load_setup_config_never_fails_witness :
    jsonParse "\x7bnot json".data = none ∧
    load_setup_config (some "\x7bnot json".data) = Json.obj [] :=
  ⟨rfl, load_setup_config_never_fails.2 "\x7bnot json".data rfl⟩

-- ### Round-trip of `save_setup_config` / `load_setup_config` (claim C8)

theorem charCode_inj {a b : Char} (h : charCode a = charCode b) : a = b := by
  have ha := Char.ofNat_toNat a
  have hb := Char.ofNat_toNat b
  rw [← ha, ← hb]
  exact congrArg Char.ofNat h

theorem char_valid_code (c : Char) :
    charCode c < 0xd800 ∨ (0xe000 ≤ charCode c ∧ charCode c < 0x110000) := by
  have h := c.valid
  unfold UInt32.isValidChar Nat.isValidChar at h
  have hc : charCode c = c.val.toNat := rfl
  rcases h with h | ⟨h1, h2⟩
  · left; omega
  · right; omega

theorem hexVal_hexDig {d : Nat} (h : d < 16) : hexVal (hexDig d) = some d := by
  have key : ∀ d : Fin 16, hexVal (hexDig d.val) = some d.val := by decide
  exact key ⟨d, h⟩

theorem hex4_toHex4 {n : Nat} (h : n < 65536) (rest : List Char) :
    hex4 (toHex4 n ++ rest) = some (n, rest) := by
  rw [show hex4 (toHex4 n ++ rest) =
      (match hexVal (hexDig (n / 4096 % 16)), hexVal (hexDig (n / 256 % 16)),
        hexVal (hexDig (n / 16 % 16)), hexVal (hexDig (n % 16)) with
      | some x, some y, some z, some w => some (4096 * x + 256 * y + 16 * z + w, rest)
      | _, _, _, _ => none) from rfl]
  rw [hexVal_hexDig (Nat.mod_lt _ (by omega)), hexVal_hexDig (Nat.mod_lt _ (by omega)),
    hexVal_hexDig (Nat.mod_lt _ (by omega)), hexVal_hexDig (Nat.mod_lt _ (by omega))]
  show some (4096 * (n / 4096 % 16) + 256 * (n / 256 % 16) + 16 * (n / 16 % 16) + n % 16,
    rest) = some (n, rest)
  simp only [Option.some.injEq, Prod.mk.injEq]
  exact ⟨by omega, trivial⟩

theorem pStrBody_u (fuel : Nat) (X : List Char) :
    pStrBody (fuel + 1) ('\\' :: 'u' :: X) =
      (match hex4 X with
       | none => none
       | some (n, rest3) =>
         if 0xd800 ≤ n ∧ n ≤ 0xdbff then
           match rest3 with
           | '\\' :: 'u' :: rest4 =>
             match hex4 rest4 with
             | none => none
             | some (m, rest5) =>
               if 0xdc00 ≤ m ∧ m ≤ 0xdfff then
                 (pStrBody fuel rest5).map (fun r =>
                   (Char.ofNat (0x10000 + (n - 0xd800) * 1024 + (m - 0xdc00)) :: r.1, r.2))
               else none
           | _ => none
         else if 0xdc00 ≤ n ∧ n ≤ 0xdfff then none
         else (pStrBody fuel rest3).map (fun r => (Char.ofNat n :: r.1, r.2))) := rfl

theorem pStrBody_lit {c : Char} (hq : c ≠ '"') (hb : c ≠ '\\')
    (hge : ¬charCode c < 32) (fuel : Nat) (rest : List Char) :
    pStrBody (fuel + 1) (c :: rest) = (pStrBody fuel rest).map (fun r => (c :: r.1, r.2)) := by
  simp only [pStrBody]
  rw [if_neg hq, if_neg hb, if_neg hge]

theorem pStrBody_escChar (c : Char) (fuel : Nat) (tail : List Char) :
    pStrBody (fuel + 1) (escChar c ++ tail) =
      (pStrBody fuel tail).map (fun r => (c :: r.1, r.2)) := by
  have hv := char_valid_code c
  by_cases h92 : charCode c = 92
  · have hc : c = '\\' := charCode_inj (by rw [h92]; rfl)
    subst hc; rfl
  by_cases h34 : charCode c = 34
  · have hc : c = '"' := charCode_inj (by rw [h34]; rfl)
    subst hc; rfl
  by_cases h8 : charCode c = 8
  · have hc : c = Char.ofNat 8 := charCode_inj (by rw [h8]; rfl)
    subst hc; rfl
  by_cases h12 : charCode c = 12
  · have hc : c = Char.ofNat 12 := charCode_inj (by rw [h12]; rfl)
    subst hc; rfl
  by_cases h10 : charCode c = 10
  · have hc : c = '\n' := charCode_inj (by rw [h10]; rfl)
    subst hc; rfl
  by_cases h13 : charCode c = 13
  · have hc : c = Char.ofNat 13 := charCode_inj (by rw [h13]; rfl)
    subst hc; rfl
  by_cases h9 : charCode c = 9
  · have hc : c = '\t' := charCode_inj (by rw [h9]; rfl)
    subst hc; rfl
  by_cases hlt32 : charCode c < 32
  · have he : escChar c = '\\' :: 'u' :: toHex4 (charCode c) := by
      unfold escChar
      rw [if_neg h92, if_neg h34, if_neg h8, if_neg h12, if_neg h10, if_neg h13, if_neg h9,
        if_pos hlt32]
    rw [he, List.cons_append, List.cons_append, pStrBody_u,
      hex4_toHex4 (by omega : charCode c < 65536) tail]
    simp only
    rw [if_neg (by omega : ¬(0xd800 ≤ charCode c ∧ charCode c ≤ 0xdbff)),
      if_neg (by omega : ¬(0xdc00 ≤ charCode c ∧ charCode c ≤ 0xdfff))]
    have hofn : Char.ofNat (charCode c) = c := Char.ofNat_toNat c
    rw [hofn]
  by_cases hle126 : charCode c ≤ 126
  · have he : escChar c = [c] := by
      unfold escChar
      rw [if_neg h92, if_neg h34, if_neg h8, if_neg h12, if_neg h10, if_neg h13, if_neg h9,
        if_neg hlt32, if_pos hle126]
    rw [he, List.singleton_append]
    exact pStrBody_lit (fun hc => h34 (by rw [hc]; rfl)) (fun hc => h92 (by rw [hc]; rfl))
      hlt32 fuel tail
  by_cases hbmp : charCode c < 65536
  · have he : escChar c = '\\' :: 'u' :: toHex4 (charCode c) := by
      unfold escChar
      rw [if_neg h92, if_neg h34, if_neg h8, if_neg h12, if_neg h10, if_neg h13, if_neg h9,
        if_neg hlt32, if_neg hle126, if_pos hbmp]
    have hns : ¬(0xd800 ≤ charCode c ∧ charCode c ≤ 0xdbff) := by omega
    have hns2 : ¬(0xdc00 ≤ charCode c ∧ charCode c ≤ 0xdfff) := by omega
    rw [he, List.cons_append, List.cons_append, pStrBody_u, hex4_toHex4 hbmp tail]
    simp only
    rw [if_neg hns, if_neg hns2]
    have hofn : Char.ofNat (charCode c) = c := Char.ofNat_toNat c
    rw [hofn]
  · have he : escChar c =
        ('\\' :: 'u' :: toHex4 (0xd800 + (charCode c - 65536) / 1024)) ++
          ('\\' :: 'u' :: toHex4 (0xdc00 + (charCode c - 65536) % 1024)) := by
      unfold escChar
      rw [if_neg h92, if_neg h34, if_neg h8, if_neg h12, if_neg h10, if_neg h13, if_neg h9,
        if_neg hlt32, if_neg hle126, if_neg hbmp]
    have hmax : charCode c < 0x110000 := by omega
    have hmod : (charCode c - 65536) % 1024 < 1024 := Nat.mod_lt _ (by omega)
    have hdiv : (charCode c - 65536) / 1024 ≤ 1023 := by omega
    rw [he]
    rw [show ('\\' :: 'u' :: toHex4 (0xd800 + (charCode c - 65536) / 1024)) ++
        ('\\' :: 'u' :: toHex4 (0xdc00 + (charCode c - 65536) % 1024)) ++ tail =
        '\\' :: 'u' :: (toHex4 (0xd800 + (charCode c - 65536) / 1024) ++
          ('\\' :: 'u' :: (toHex4 (0xdc00 + (charCode c - 65536) % 1024) ++ tail))) by
      simp [List.cons_append, List.append_assoc]]
    rw [pStrBody_u, hex4_toHex4 (by omega : 0xd800 + (charCode c - 65536) / 1024 < 65536)]
    dsimp only
    rw [if_pos (by omega :
      0xd800 ≤ 0xd800 + (charCode c - 65536) / 1024 ∧
        0xd800 + (charCode c - 65536) / 1024 ≤ 0xdbff)]
    simp only
    rw [hex4_toHex4 (by omega : 0xdc00 + (charCode c - 65536) % 1024 < 65536) tail]
    simp only
    rw [if_pos (by omega :
      0xdc00 ≤ 0xdc00 + (charCode c - 65536) % 1024 ∧
        0xdc00 + (charCode c - 65536) % 1024 ≤ 0xdfff)]
    have hchar : Char.ofNat (0x10000 + (0xd800 + (charCode c - 65536) / 1024 - 0xd800) * 1024 +
        (0xdc00 + (charCode c - 65536) % 1024 - 0xdc00)) = c := by
      rw [show 0x10000 + (0xd800 + (charCode c - 65536) / 1024 - 0xd800) * 1024 +
          (0xdc00 + (charCode c - 65536) % 1024 - 0xdc00) = charCode c by omega]
      exact Char.ofNat_toNat c
    rw [hchar]

theorem escChar_length_pos (c : Char) : 1 ≤ (escChar c).length := by
  unfold escChar
  repeat' split
  all_goals simp

theorem flatten_escChar_length (s : List Char) :
    s.length ≤ ((s.map escChar).flatten).length := by
  induction s with
  | nil => simp
  | cons c s' ih =>
    simp only [List.map_cons, List.flatten_cons, List.length_append, List.length_cons]
    have := escChar_length_pos c
    omega

theorem pStrBody_encoded (s : List Char) : ∀ (extra : Nat) (rest : List Char),
    pStrBody (extra + (s.length + 1)) ((s.map escChar).flatten ++ '"' :: rest) =
      some (s, rest) := by
  induction s with
  | nil =>
    intro extra rest
    show pStrBody (extra + 1) ('"' :: rest) = some ([], rest)
    simp only [pStrBody]
    rw [if_pos trivial]
  | cons c s' ih =>
    intro extra rest
    have hform : (((c :: s').map escChar).flatten) ++ '"' :: rest =
        escChar c ++ ((s'.map escChar).flatten ++ '"' :: rest) := by
      simp [List.append_assoc]
    rw [hform, show extra + ((c :: s').length + 1) = (extra + (s'.length + 1)) + 1 from rfl,
      pStrBody_escChar c (extra + (s'.length + 1)), ih extra rest]
    rfl

theorem skipWs_cons_of_ws {c : Char} (h : jsonWsChar c = true) (w : List Char) :
    skipWs (c :: w) = skipWs w := by
  simp [skipWs, List.dropWhile_cons, h]

theorem skipWs_cons_of_not {c : Char} (h : jsonWsChar c = false) (w : List Char) :
    skipWs (c :: w) = c :: w := by
  simp [skipWs, List.dropWhile_cons, h]

theorem pValue_str_ws {s v tail : List Char} (fuel : Nat)
    (hs : skipWs s = dumpStr v ++ tail) :
    pValue (fuel + 1) s = some (Json.str v, tail) := by
  have hform : dumpStr v ++ tail = '"' :: ((v.map escChar).flatten ++ '"' :: tail) := by
    simp [dumpStr, List.append_assoc]
  rw [hform] at hs
  simp only [pValue]
  rw [hs]
  show (pStrBody (((v.map escChar).flatten ++ '"' :: tail).length + 1)
      ((v.map escChar).flatten ++ '"' :: tail)).map (fun r => (Json.str r.1, r.2)) =
    some (Json.str v, tail)
  obtain ⟨m, hm⟩ : ∃ m,
      ((v.map escChar).flatten ++ '"' :: tail).length + 1 = m + (v.length + 1) := by
    refine ⟨((v.map escChar).flatten ++ '"' :: tail).length - v.length, ?_⟩
    have := flatten_escChar_length v
    simp only [List.length_append, List.length_cons]
    omega
  rw [hm, pStrBody_encoded]
  rfl

/-- Continuation text after one rendered member: the closing text when it
was the last member, or the comma, newline and remaining members. -/
def itemsCont (kvs : List (List Char × List Char)) (y : List Char) : List Char :=
  match kvs with
  | [] => y
  | _ :: _ => ',' :: '\n' :: (dumpItems kvs ++ y)

theorem skipWs_items (k v : List Char) (kvs' : List (List Char × List Char))
    (y : List Char) :
    skipWs (dumpItems ((k, v) :: kvs') ++ y) =
      dumpStr k ++ (": ".data ++ (dumpStr v ++ itemsCont kvs' y)) := by
  have hq : ∀ z : List Char, skipWs (dumpStr k ++ z) = dumpStr k ++ z := by
    intro z
    rw [show dumpStr k ++ z = '"' :: (((k.map escChar).flatten ++ ['"']) ++ z) from rfl]
    exact skipWs_cons_of_not (by decide) _
  cases kvs' with
  | nil =>
    have hform : dumpItems [(k, v)] ++ y =
        ' ' :: ' ' :: ' ' :: ' ' :: (dumpStr k ++ (": ".data ++ (dumpStr v ++ y))) := by
      show ("    ".data ++ (dumpStr k ++ (": ".data ++ dumpStr v))) ++ y = _
      simp [List.append_assoc]
    rw [hform, skipWs_cons_of_ws (by decide), skipWs_cons_of_ws (by decide),
      skipWs_cons_of_ws (by decide), skipWs_cons_of_ws (by decide), hq]
    rfl
  | cons kv2 more =>
    have hform : dumpItems ((k, v) :: kv2 :: more) ++ y =
        ' ' :: ' ' :: ' ' :: ' ' :: (dumpStr k ++ (": ".data ++ (dumpStr v ++
          (',' :: '\n' :: (dumpItems (kv2 :: more) ++ y))))) := by
      show ("    ".data ++ (dumpStr k ++ (": ".data ++ (dumpStr v ++
        ',' :: '\n' :: dumpItems (kv2 :: more))))) ++ y = _
      simp [List.append_assoc]
    rw [hform, skipWs_cons_of_ws (by decide), skipWs_cons_of_ws (by decide),
      skipWs_cons_of_ws (by decide), skipWs_cons_of_ws (by decide), hq]
    rfl

theorem pMembers_one (fuel : Nat) (acc : List (List Char × Json)) (k v cont : List Char) :
    pMembers (fuel + 1 + 1) acc (dumpStr k ++ (": ".data ++ (dumpStr v ++ cont))) =
      (if (skipWs cont).head? = some ',' then
        pMembers (fuel + 1) (acc ++ [(k, Json.str v)]) (skipWs ((skipWs cont).tail))
      else if (skipWs cont).head? = some '}' then
        some (Json.obj (dictOfPairs (acc ++ [(k, Json.str v)])), (skipWs cont).tail)
      else none) := by
  have hw : dumpStr k ++ (": ".data ++ (dumpStr v ++ cont)) =
      '"' :: ((k.map escChar).flatten ++ '"' :: (": ".data ++ (dumpStr v ++ cont))) := by
    simp [dumpStr, List.append_assoc]
  rw [hw]
  conv_lhs => rw [pMembers]
  simp only [List.head?_cons, List.tail_cons]
  rw [if_pos trivial]
  obtain ⟨m, hm⟩ : ∃ m,
      ((k.map escChar).flatten ++ '"' :: (": ".data ++ (dumpStr v ++ cont))).length + 1 =
        m + (k.length + 1) := by
    refine ⟨((k.map escChar).flatten ++ '"' :: (": ".data ++ (dumpStr v ++ cont))).length
      - k.length, ?_⟩
    have := flatten_escChar_length k
    simp only [List.length_append, List.length_cons]
    omega
  rw [hm, pStrBody_encoded]
  dsimp only
  rw [show (": ".data ++ (dumpStr v ++ cont)) = ':' :: ' ' :: (dumpStr v ++ cont) from rfl,
    skipWs_cons_of_not (by decide), List.head?_cons, if_pos rfl, List.tail_cons]
  have hv : pValue (fuel + 1) (' ' :: (dumpStr v ++ cont)) = some (Json.str v, cont) := by
    apply pValue_str_ws
    rw [skipWs_cons_of_ws (by decide)]
    rw [show dumpStr v ++ cont = '"' :: (((v.map escChar).flatten ++ ['"']) ++ cont) from rfl]
    exact skipWs_cons_of_not (by decide) _
  rw [hv]

theorem pMembers_items (kvs : List (List Char × List Char)) :
    ∀ (extra : Nat) (acc : List (List Char × Json)) (rest : List Char), kvs ≠ [] →
    pMembers (extra + kvs.length + 1) acc (skipWs (dumpItems kvs ++ '\n' :: '}' :: rest)) =
      some (Json.obj (dictOfPairs (acc ++ kvs.map (fun kv => (kv.1, Json.str kv.2)))), rest) := by
  induction kvs with
  | nil => intro _ _ _ h; exact absurd rfl h
  | cons kv kvs' ih =>
    intro extra acc rest _
    obtain ⟨k, v⟩ := kv
    rw [skipWs_items k v kvs' ('\n' :: '}' :: rest)]
    cases kvs' with
    | nil =>
      show pMembers ((extra + 0) + 1 + 1) acc
        (dumpStr k ++ (": ".data ++ (dumpStr v ++ itemsCont [] ('\n' :: '}' :: rest)))) = _
      rw [show itemsCont [] ('\n' :: '}' :: rest) = '\n' :: '}' :: rest from rfl,
        pMembers_one]
      rw [skipWs_cons_of_ws (by decide), skipWs_cons_of_not (by decide), List.head?_cons]
      rw [if_neg (by decide), if_pos rfl, List.tail_cons]
      simp
    | cons kv2 more =>
      show pMembers ((extra + (kv2 :: more).length) + 1 + 1) acc
        (dumpStr k ++ (": ".data ++ (dumpStr v ++
          itemsCont (kv2 :: more) ('\n' :: '}' :: rest)))) = _
      rw [show itemsCont (kv2 :: more) ('\n' :: '}' :: rest) =
        ',' :: '\n' :: (dumpItems (kv2 :: more) ++ '\n' :: '}' :: rest) from rfl,
        pMembers_one]
      rw [skipWs_cons_of_not (by decide), List.head?_cons, if_pos rfl, List.tail_cons,
        skipWs_cons_of_ws (by decide)]
      rw [ih extra (acc ++ [(k, Json.str v)]) rest (by simp)]
      simp

theorem dictInsert_not_mem {m : List (List Char × Json)} {k : List Char} {v : Json}
    (h : k ∉ m.map Prod.fst) : dictInsert m k v = m ++ [(k, v)] := by
  induction m with
  | nil => rfl
  | cons kv m' ih =>
    obtain ⟨k', v'⟩ := kv
    simp only [List.map_cons, List.mem_cons] at h
    push_neg at h
    unfold dictInsert
    rw [if_neg (fun he => h.1 he.symm), ih h.2]
    simp

theorem dictOfPairs_aux (l : List (List Char × Json)) :
    ∀ acc : List (List Char × Json),
      (∀ k ∈ l.map Prod.fst, k ∉ acc.map Prod.fst) → (l.map Prod.fst).Nodup →
      l.foldl (fun m kv => dictInsert m kv.1 kv.2) acc = acc ++ l := by
  induction l with
  | nil => intro acc _ _; simp
  | cons kv l' ih =>
    intro acc hdisj hnd
    obtain ⟨k, v⟩ := kv
    simp only [List.map_cons, List.nodup_cons] at hnd
    simp only [List.foldl_cons]
    rw [show dictInsert acc (k, v).1 (k, v).2 = dictInsert acc k v from rfl,
      dictInsert_not_mem (hdisj k (List.mem_map.mpr ⟨(k, v), List.mem_cons_self _ _, rfl⟩))]
    rw [ih (acc ++ [(k, v)]) ?_ hnd.2]
    · simp
    · intro k' hk'
      simp only [List.map_append, List.mem_append]
      rintro (hacc | hsing)
      · exact hdisj k' (by simp [hk']) hacc
      · simp only [List.map_cons, List.map_nil, List.mem_singleton] at hsing
        exact hnd.1 (hsing ▸ hk')

theorem dictOfPairs_nodup {l : List (List Char × Json)}
    (h : (l.map Prod.fst).Nodup) : dictOfPairs l = l := by
  unfold dictOfPairs
  rw [dictOfPairs_aux l [] (fun k _ => List.not_mem_nil k) h]
  simp

theorem dumpStr_length (s : List Char) : 2 ≤ (dumpStr s).length := by
  simp [dumpStr]

theorem dumpItems_length (kvs : List (List Char × List Char)) :
    kvs.length ≤ (dumpItems kvs).length := by
  induction kvs with
  | nil => simp [dumpItems]
  | cons kv kvs' ih =>
    obtain ⟨k, v⟩ := kv
    cases kvs' with
    | nil => simp [dumpItems]
    | cons kv2 more =>
      have h2 := ih
      simp only [dumpItems, List.length_append, List.length_cons] at *
      omega

theorem jsonParse_save (kvs : List (List Char × List Char))
    (hnd : (kvs.map Prod.fst).Nodup) :
    jsonParse (save_setup_config kvs) =
      some (Json.obj (kvs.map (fun kv => (kv.1, Json.str kv.2)))) := by
  cases kvs with
  | nil => rfl
  | cons kv kvs' =>
    obtain ⟨k, v⟩ := kv
    set kvs := (k, v) :: kvs' with hkvs
    have hsave : save_setup_config kvs =
        '{' :: '\n' :: (dumpItems kvs ++ '\n' :: '}' :: []) := rfl
    set L := (save_setup_config kvs).length with hL
    have hLlen : kvs.length + 1 ≤ L := by
      have := dumpItems_length kvs
      rw [hL, hsave]
      simp only [List.length_cons, List.length_append, hkvs] at *
      omega
    have hskip := skipWs_items k v kvs' ('\n' :: '}' :: ([] : List Char))
    have hstep : pValue (L + 1) (save_setup_config kvs) =
        pMembers L [] (skipWs (dumpItems kvs ++ '\n' :: '}' :: [])) := by
      rw [hsave]
      conv_lhs => rw [pValue]
      rw [skipWs_cons_of_not (by decide)]
      dsimp only
      rw [if_pos rfl]
      rw [show skipWs ('\n' :: (dumpItems kvs ++ '\n' :: '}' :: [])) =
        skipWs (dumpItems kvs ++ '\n' :: '}' :: []) from skipWs_cons_of_ws (by decide) _]
      rw [hkvs, hskip]
      rw [show (dumpStr k ++ (": ".data ++ (dumpStr v ++
        itemsCont kvs' ('\n' :: '}' :: [])))).head? = some '"' from rfl]
      rw [if_neg (by decide)]
    have hmem := pMembers_items kvs (L - kvs.length - 1) [] [] (by rw [hkvs]; simp)
    rw [show L - kvs.length - 1 + kvs.length + 1 = L by omega] at hmem
    unfold jsonParse
    rw [hstep, hmem]
    dsimp only
    rw [show skipWs ([] : List Char) = [] from rfl,
      if_pos (show ([] : List Char).isEmpty = true from rfl)]
    rw [show ([] : List (List Char × Json)) ++
      kvs.map (fun kv => (kv.1, Json.str kv.2)) = kvs.map (fun kv => (kv.1, Json.str kv.2))
      from by simp]
    rw [dictOfPairs_nodup (by simpa using hnd)]

/-- C8: preferences round-trip — for every flat string-valued mapping
(distinct keys, as in a Python dict), saving with `save_setup_config` and
loading the saved text with `load_setup_config` yields exactly the
mapping that was saved. -/
theorem save_load_round_trip (kvs : List (List Char × List Char))
    (hnd : (kvs.map Prod.fst).Nodup) :
    load_setup_config (some (save_setup_config kvs)) =
      Json.obj (kvs.map (fun kv => (kv.1, Json.str kv.2))) := by
  show (match jsonParse (save_setup_config kvs) with
    | some v => v
    | none => Json.obj []) = _
  rw [jsonParse_save kvs hnd]

/-- Witness for `save_load_round_trip` at the three preference keys the
program actually persists. -/
theorem save_load_round_trip_witness :
    (([("default_parent_directory".data, "D:/SplunkInstances".data),
       ("last_indexer_ip".data, "10.0.0.5".data),
       ("last_indexer_port".data, "9997".data)].map Prod.fst).Nodup) ∧
    load_setup_config (some (save_setup_config
      [("default_parent_directory".data, "D:/SplunkInstances".data),
       ("last_indexer_ip".data, "10.0.0.5".data),
       ("last_indexer_port".data, "9997".data)])) =
    Json.obj [("default_parent_directory".data, Json.str "D:/SplunkInstances".data),
      ("last_indexer_ip".data, Json.str "10.0.0.5".data),
      ("last_indexer_port".data, Json.str "9997".data)] :=
  ⟨by decide, save_load_round_trip _ (by decide)⟩

-- ### The rendered `inputs.conf` template of `main` (claim C9)

/-- `container_name = f"{project_name_sanitized}-{container_name_base}"`:
the resource name of the instance. -/
def container_name (p base : List Char) : List Char := p ++ '-' :: base

/-- `log_file_name = f"{project_name_sanitized}_test.log"`. -/
def log_file_name (p : List Char) : List Char := p ++ "_test.log".data

/-- The `inputs_conf_content` f-string of `main` (`setup.py`), with its
three interpolations (`project_name_sanitized`, `log_file_name` and the
twice-used `container_name`); both `host =` lines carry a trailing space
exactly as in the source. -/
def inputs_conf_content (p base : List Char) : List Char :=
  "# inputs.conf - Instance: ".data ++ p ++
  "\n# Hostname reported to Splunk will be the container name: ".data ++
  container_name p base ++
  "\n[monitor:///opt/logs/".data ++ log_file_name p ++
  "]\ndisabled = false\nindex = main\nsourcetype = _json\nhost = ".data ++
  container_name p base ++
  " \n\n[monitor:///opt/logs/*.log]\n# Generic catch-all for other logs placed in host_logs if needed\ndisabled = true\nindex = main\nsourcetype = _json\nhost = ".data ++
  container_name p base ++ " \n".data

theorem not_newline_container {p base : List Char} (hp : '\n' ∉ p) (hb : '\n' ∉ base) :
    '\n' ∉ container_name p base := by
  intro h
  rcases List.mem_append.mp h with h | h
  · exact hp h
  · rcases List.mem_cons.mp h with h | h
    · exact absurd h (by decide)
    · exact hb h

theorem not_newline_logfile {p : List Char} (hp : '\n' ∉ p) :
    '\n' ∉ log_file_name p := by
  intro h
  rcases List.mem_append.mp h with h | h
  · exact hp h
  · exact absurd h (by decide)

/-- Prefix test on character lists (recursing on the pattern, so that it
evaluates even when the tail of the line is symbolic). -/
def linePrefixOf : List Char → List Char → Bool
  | [], _ => true
  | _ :: _, [] => false
  | a :: as, b :: bs => a == b && linePrefixOf as bs

set_option maxRecDepth 8192 in
theorem inputs_conf_lines (p base : List Char) (hp : '\n' ∉ p) (hb : '\n' ∉ base) :
    splitNl (inputs_conf_content p base) =
      ["# inputs.conf - Instance: ".data ++ p,
       "# Hostname reported to Splunk will be the container name: ".data ++
         container_name p base,
       "[monitor:///opt/logs/".data ++ (log_file_name p ++ "]".data),
       "disabled = false".data,
       "index = main".data,
       "sourcetype = _json".data,
       "host = ".data ++ (container_name p base ++ [' ']),
       [],
       "[monitor:///opt/logs/*.log]".data,
       "# Generic catch-all for other logs placed in host_logs if needed".data,
       "disabled = true".data,
       "index = main".data,
       "sourcetype = _json".data,
       "host = ".data ++ (container_name p base ++ [' ']),
       []] := by
  have hcn := not_newline_container hp hb
  have hlf := not_newline_logfile hp
  have hcontent : inputs_conf_content p base =
      ("# inputs.conf - Instance: ".data ++ p) ++ '\n' ::
      (("# Hostname reported to Splunk will be the container name: ".data ++
        container_name p base) ++ '\n' ::
      (("[monitor:///opt/logs/".data ++ (log_file_name p ++ "]".data)) ++ '\n' ::
      ("disabled = false".data ++ '\n' ::
      ("index = main".data ++ '\n' ::
      ("sourcetype = _json".data ++ '\n' ::
      (("host = ".data ++ (container_name p base ++ [' '])) ++ '\n' ::
      (([] : List Char) ++ '\n' ::
      ("[monitor:///opt/logs/*.log]".data ++ '\n' ::
      ("# Generic catch-all for other logs placed in host_logs if needed".data ++ '\n' ::
      ("disabled = true".data ++ '\n' ::
      ("index = main".data ++ '\n' ::
      ("sourcetype = _json".data ++ '\n' ::
      (("host = ".data ++ (container_name p base ++ [' '])) ++ '\n' ::
      ([] : List Char)))))))))))))) := by
    unfold inputs_conf_content
    rw [show "\n# Hostname reported to Splunk will be the container name: ".data =
        '\n' :: "# Hostname reported to Splunk will be the container name: ".data from rfl,
      show "\n[monitor:///opt/logs/".data = '\n' :: "[monitor:///opt/logs/".data from rfl,
      show "]\ndisabled = false\nindex = main\nsourcetype = _json\nhost = ".data =
        "]".data ++ '\n' :: "disabled = false".data ++ '\n' :: "index = main".data ++
          '\n' :: "sourcetype = _json".data ++ '\n' :: "host = ".data from rfl,
      show " \n\n[monitor:///opt/logs/*.log]\n# Generic catch-all for other logs placed in host_logs if needed\ndisabled = true\nindex = main\nsourcetype = _json\nhost = ".data =
        [' '] ++ '\n' :: ([] : List Char) ++ '\n' :: "[monitor:///opt/logs/*.log]".data ++
          '\n' :: "# Generic catch-all for other logs placed in host_logs if needed".data ++
          '\n' :: "disabled = true".data ++ '\n' :: "index = main".data ++
          '\n' :: "sourcetype = _json".data ++ '\n' :: "host = ".data from rfl,
      show " \n".data = [' '] ++ '\n' :: ([] : List Char) from rfl]
    simp [List.append_assoc]
  have hA : '\n' ∉ "# inputs.conf - Instance: ".data ++ p := by
    intro h
    rcases List.mem_append.mp h with h | h
    · exact absurd h (by decide)
    · exact hp h
  have hB : '\n' ∉ "# Hostname reported to Splunk will be the container name: ".data ++
      container_name p base := by
    intro h
    rcases List.mem_append.mp h with h | h
    · exact absurd h (by decide)
    · exact hcn h
  have hC : '\n' ∉ "[monitor:///opt/logs/".data ++ (log_file_name p ++ "]".data) := by
    intro h
    rcases List.mem_append.mp h with h | h
    · exact absurd h (by decide)
    · rcases List.mem_append.mp h with h | h
      · exact hlf h
      · exact absurd h (by decide)
  have hD : '\n' ∉ "host = ".data ++ (container_name p base ++ [' ']) := by
    intro h
    rcases List.mem_append.mp h with h | h
    · exact absurd h (by decide)
    · rcases List.mem_append.mp h with h | h
      · exact hcn h
      · exact absurd h (by decide)
  rw [hcontent]
  simp only [splitNl_append]
  simp only [splitNl_no_newline hA, splitNl_no_newline hB, splitNl_no_newline hC,
    splitNl_no_newline hD,
    splitNl_no_newline (show '\n' ∉ "disabled = false".data by decide),
    splitNl_no_newline (show '\n' ∉ "index = main".data by decide),
    splitNl_no_newline (show '\n' ∉ "sourcetype = _json".data by decide),
    splitNl_no_newline (show '\n' ∉ "[monitor:///opt/logs/*.log]".data by decide),
    splitNl_no_newline
      (show '\n' ∉ "# Generic catch-all for other logs placed in host_logs if needed".data
        by decide),
    splitNl_no_newline (show '\n' ∉ "disabled = true".data by decide)]
  rfl

/-- C9: for every instance descriptor (any newline-free sanitized name and
base suffix), the rendered `inputs.conf` sets the `host` field in exactly
two stanzas — the dedicated monitored log file and the disabled catch-all
glob — and in both the value is the resource name
`container_name = p ++ "-" ++ base` (with the template's trailing space),
which is never the bare sanitized instance name. -/
theorem inputs_conf_host_is_resource_name (p base : List Char)
    (hp : '\n' ∉ p) (hb : '\n' ∉ base) :
    (splitNl (inputs_conf_content p base)).filter
        (fun l => linePrefixOf "host = ".data l) =
      ["host = ".data ++ (container_name p base ++ [' ']),
       "host = ".data ++ (container_name p base ++ [' '])] ∧
    container_name p base ≠ p := by
  constructor
  · rw [inputs_conf_lines p base hp hb]
    rfl
  · intro he
    have hlen : (container_name p base).length = p.length := by rw [he]
    simp only [container_name, List.length_append, List.length_cons] at hlen
    omega

/-- Witness for `inputs_conf_host_is_resource_name` at the scenario values
`p = "web_app_logs"`, `base = "uf"`. -/
theorem inputs_conf_host_witness :
    ('\n' ∉ "web_app_logs".data) ∧ ('\n' ∉ "uf".data) ∧
    ((splitNl (inputs_conf_content "web_app_logs".data "uf".data)).filter
        (fun l => linePrefixOf "host = ".data l) =
      ["host = ".data ++ (container_name "web_app_logs".data "uf".data ++ [' ']),
       "host = ".data ++ (container_name "web_app_logs".data "uf".data ++ [' '])] ∧
    container_name "web_app_logs".data "uf".data ≠ "web_app_logs".data) :=
  ⟨by decide, by decide,
    inputs_conf_host_is_resource_name "web_app_logs".data "uf".data (by decide) (by decide)⟩
